import Mathlib

/-!
Verification of the reverse-subtract loop-analysis program (src/seq2.py).

The program repeatedly replaces a non-negative integer by the absolute
difference between the number and its digit reversal (with a single-digit
zero-padding convention), records the visited values until one repeats,
extracts the repeating cycle, rotates it so it starts at its minimum
element, and tallies the canonical cycles over a range of starting values.

The definitions below are a shallow embedding of the Python source:
- strings of decimal digits are modelled as big-endian digit lists,
  with int() parsing modelled as a left fold;
- the unbounded while-loop of find_ending_loop_for_number is modelled
  with explicit fuel, and we prove that the chosen fuel always suffices;
- Python exceptions (ValueError) are modelled with Except;
- the defaultdict frequency table is modelled as an association list.
-/

namespace Seq2

/-- Little-endian decimal digits of n, computed with explicit structural
fuel so the kernel can evaluate it (the fuel n is enough because the
argument strictly decreases under division by 10). digitsAux f 0 = []. -/
def digitsAux : Nat → Nat → List Nat
  | 0, _ => []
  | _ + 1, 0 => []
  | fuel + 1, n + 1 => (n + 1) % 10 :: digitsAux fuel ((n + 1) / 10)

/-- Little-endian decimal digits of n (empty for n = 0). -/
def digits10 (n : Nat) : List Nat := digitsAux n n

/-- int(S) for a big-endian digit string S, as Python parses it:
a left fold accumulating acc * 10 + digit. -/
def strToNat (s : List Nat) : Nat := List.foldl (fun acc d => acc * 10 + d) 0 s

/-- reverse_number from src/seq2.py lines 5-17: render n in decimal
(big-endian digit list s, with str(0) = "0"), pad a single-digit string
with a leading zero, reverse the string and parse it back with int(). -/
def reverse_number (n : Nat) : Nat :=
  let s : List Nat := if n = 0 then [0] else (digits10 n).reverse
  let s_to_reverse : List Nat := if s.length = 1 then 0 :: s else s
  strToNat s_to_reverse.reverse

/-- The reverse-subtract step, inlined in src/seq2.py lines 66-83:
next is 0 when the value equals its reversal, otherwise the larger
minus the smaller. -/
def stepFn (n : Nat) : Nat :=
  let r := reverse_number n
  if n = r then 0
  else if n > r then n - r
  else r - n

/-- Python min over a non-empty list given as head and tail
(left fold with binary min, exactly min(list)). -/
def listMin1 : Nat → List Nat → Nat
  | a, [] => a
  | a, b :: t => listMin1 (min a b) t

/-- Python min(list) for possibly-empty lists (0 for the empty list,
which min() would reject; only used on non-empty lists). -/
def listMinL : List Nat → Nat
  | [] => 0
  | a :: t => listMin1 a t

/-- get_canonical_loop from src/seq2.py lines 19-33: rotate the list so
that it starts at the first occurrence of the minimum value; the empty
list maps to the empty tuple. -/
def get_canonical_loop (l : List Nat) : List Nat :=
  match l with
  | [] => []
  | a :: t =>
    let min_val := listMin1 a t
    let min_idx := (a :: t).indexOf min_val
    (a :: t).drop min_idx ++ (a :: t).take min_idx

/-- The while-loop of find_ending_loop_for_number (src/seq2.py lines
59-87), with explicit fuel. seq models the visited sequence; the dict
seen_numbers maps each visited value to its first index, which for the
duplicate-free sequence is exactly List.indexOf. On a repeat the raw
loop is the suffix of the sequence from that first index. -/
def loopAux : Nat → List Nat → Nat → Option (List Nat)
  | 0, _, _ => none
  | fuel + 1, seq, current =>
    if current ∈ seq then some (seq.drop (seq.indexOf current))
    else loopAux fuel (seq ++ [current]) (stepFn current)

/-- find_ending_loop_for_number (src/seq2.py lines 35-97) on a valid
non-negative integer input: run the detection loop and canonicalize the
raw loop. The fuel 10 ^ max 2 n + 1 is an embedding artifact; the
termination theorem below shows it always suffices, so the Option is
always some. -/
def find_ending_loop_for_number (n : Nat) : Option (List Nat) :=
  (loopAux (10 ^ max 2 n + 1) [] n).map get_canonical_loop

/-- A Python value handed to the analysis entry points, classified by
what reverse_number's str()/int() pipeline sees of it: an int; a
non-int value (such as a string) whose str() rendering is exactly the
non-empty sequence of decimal digit characters d :: ds (the string
"42" is nonIntDigits 4 [2]); or a non-int value whose rendering
contains a character int() rejects in every position, such as a letter
or a decimal point (floats render with a point, so they fall here).
Renderings mixing digits with signs or whitespace are outside this
model. For the detector's validation at src/seq2.py lines 47-48 only
the int / non-int distinction matters. -/
inductive PyValue where
  | intV : Int → PyValue
  | nonIntDigits : Nat → List Nat → PyValue
  | nonIntOther : PyValue

/-- find_ending_loop_for_number including its input validation
(src/seq2.py lines 47-48): any non-int input — even one rendering as
digits — and any negative int raises ValueError before the while-loop
starts. -/
def find_ending_loop_py (v : PyValue) : Except String (List Nat) :=
  match v with
  | .nonIntDigits _ _ => .error "Input must be a non-negative integer."
  | .nonIntOther => .error "Input must be a non-negative integer."
  | .intV i =>
    if i < 0 then .error "Input must be a non-negative integer."
    else
      match find_ending_loop_for_number i.toNat with
      | some l => .ok l
      | none => .error "nontermination"

/-- The detector applied to a Python int. -/
def find_ending_loop_int (i : Int) : Except String (List Nat) :=
  find_ending_loop_py (.intV i)

/-- reverse_number applied to an arbitrary Python value (src/seq2.py
lines 5-17). The source performs no validation: it renders the value
with str(), pads a length-1 rendering with a leading zero, reverses,
and parses with int(). A non-negative int behaves as reverse_number; a
negative int renders with a leading minus sign, so the reversed string
ends in the minus and int() raises ValueError; a non-int whose
rendering is all digit characters goes through the same pad, reverse
and parse as an int would and is silently returned as a number; a
non-int whose rendering contains a character int() rejects anywhere
makes int() raise. -/
def reverse_number_py (v : PyValue) : Except String Nat :=
  match v with
  | .intV i =>
    if i < 0 then .error "invalid literal for int() with base 10"
    else .ok (reverse_number i.toNat)
  | .nonIntDigits d ds =>
    .ok (strToNat ((if (d :: ds).length = 1 then 0 :: d :: ds else d :: ds).reverse))
  | .nonIntOther => .error "invalid literal for int() with base 10"

/-- Digit reversal over Python ints (possibly negative), as an Int:
negative inputs make int() raise, non-negative inputs agree with
reverse_number. -/
def reverse_int (n : Int) : Except String Int :=
  if n < 0 then .error "invalid literal for int() with base 10"
  else .ok ((reverse_number n.toNat : Nat) : Int)

/-- The reverse-subtract step over Python ints (src/seq2.py lines
66-83), propagating the error reverse_number would raise. -/
def step_int (n : Int) : Except String Int :=
  match reverse_int n with
  | .error e => .error e
  | .ok r => .ok (if n = r then 0 else if n > r then n - r else r - n)

/-- The detection while-loop over Python ints, returning the visited
sequence together with the raw loop when a repeat occurred within the
fuel (none when the fuel ran out first). Errors raised by the step are
propagated. -/
def detect_seq_int : Nat → List Int → Int → Except String (List Int × Option (List Int))
  | 0, seq, _ => .ok (seq, none)
  | fuel + 1, seq, current =>
    if current ∈ seq then .ok (seq, some (seq.drop (seq.indexOf current)))
    else
      match step_int current with
      | .error e => .error e
      | .ok next => detect_seq_int fuel (seq ++ [current]) next

/-- The integers of range(start_range, end_range + 1), in order. -/
def rangeList (s e : Int) : List Int :=
  (List.range (e + 1 - s).toNat).map (fun j : Nat => s + (j : Int))

/-- loop_frequencies[loop] += 1 on the association-list model of the
defaultdict (src/seq2.py line 118). -/
def bump : List (List Nat × Nat) → List Nat → List (List Nat × Nat)
  | [], key => [(key, 1)]
  | (k, c) :: rest, key =>
    if k = key then (k, c + 1) :: rest else (k, c) :: bump rest key

/-- The accumulation loop of analyze_number_range (src/seq2.py lines
114-118): detect the loop for each value in order and count it. -/
def analyzeAux : List Int → List (List Nat × Nat) → Except String (List (List Nat × Nat))
  | [], tbl => .ok tbl
  | i :: rest, tbl =>
    match find_ending_loop_int i with
    | .error e => .error e
    | .ok loop => analyzeAux rest (bump tbl loop)

/-- analyze_number_range (src/seq2.py lines 99-135) restricted to its
core data flow: build the frequency table over the inclusive range.
Note the source performs no range validation of its own (the CLI layer
checks the bounds before calling it); an empty range simply yields an
empty table. -/
def analyze_number_range (s e : Int) : Except String (List (List Nat × Nat)) :=
  analyzeAux (rangeList s e) []

/-- Total of the counts of a frequency table. -/
def sumCounts (tbl : List (List Nat × Nat)) : Nat :=
  (tbl.map Prod.snd).sum

/-- Python tuple comparison on loops: lexicographic, with a strict
prefix comparing smaller. -/
def tupLt : List Nat → List Nat → Bool
  | [], [] => false
  | [], _ :: _ => true
  | _ :: _, [] => false
  | a :: as_, b :: bs =>
    if a < b then true
    else if b < a then false
    else tupLt as_ bs

/-- Python comparison of the sort keys (count, loop) used at
src/seq2.py line 138: count first, the loop tuple as tie-break. -/
def entryKeyLt (x y : List Nat × Nat) : Bool :=
  if x.2 < y.2 then true
  else if y.2 < x.2 then false
  else tupLt x.1 y.1

/-- Insert an entry into a list kept in descending key order. -/
def insertDesc (x : List Nat × Nat) : List (List Nat × Nat) → List (List Nat × Nat)
  | [] => [x]
  | y :: ys => if entryKeyLt y x then x :: y :: ys else y :: insertDesc x ys

/-- sorted(loop_frequencies.items(), key (count, loop), reverse)
(src/seq2.py line 138): the table in descending (count, loop) order. -/
def sorted_loops (tbl : List (List Nat × Nat)) : List (List Nat × Nat) :=
  tbl.foldr insertDesc []

/-- The descending order the rendered summary must respect, from the
spec: x may precede y only when x has the larger count, or the counts
tie and x's loop tuple is not smaller than y's. -/
def entryGE (x y : List Nat × Nat) : Prop :=
  y.2 ≤ x.2 ∧ (x.2 = y.2 → tupLt x.1 y.1 = false)

/-! ### Digit rendering and parsing -/

theorem digitsAux_fuel : ∀ (f g n : Nat), n ≤ f → n ≤ g → digitsAux f n = digitsAux g n := by
  intro f
  induction f with
  | zero =>
    intro g n hf _
    have hn : n = 0 := by omega
    subst hn
    cases g <;> rfl
  | succ f ih =>
    intro g n hf hg
    cases n with
    | zero => cases g <;> rfl
    | succ m =>
      cases g with
      | zero => omega
      | succ g =>
        have hd : (m + 1) / 10 < m + 1 := Nat.div_lt_self (by omega) (by omega)
        simp only [digitsAux]
        rw [ih g ((m + 1) / 10) (by omega) (by omega)]

theorem digits10_def {n : Nat} (h : 0 < n) : digits10 n = n % 10 :: digits10 (n / 10) := by
  cases n with
  | zero => omega
  | succ m =>
    show digitsAux (m + 1) (m + 1) = _
    have hd : (m + 1) / 10 < m + 1 := Nat.div_lt_self (by omega) (by omega)
    simp only [digitsAux]
    rw [digitsAux_fuel m ((m + 1) / 10) ((m + 1) / 10) (by omega) le_rfl]
    rfl

theorem digits10_eq_digits (n : Nat) : digits10 n = Nat.digits 10 n := by
  induction n using Nat.strong_induction_on with
  | _ n ih =>
    rcases Nat.eq_zero_or_pos n with h | h
    · subst h; rw [Nat.digits_zero]; rfl
    · rw [digits10_def h, Nat.digits_def' (by norm_num : (1 : Nat) < 10) h,
        ih (n / 10) (Nat.div_lt_self h (by norm_num))]

theorem digitsAux_lt_ten : ∀ (f n : Nat), ∀ d ∈ digitsAux f n, d < 10 := by
  intro f
  induction f with
  | zero => intro n d hd; simp [digitsAux] at hd
  | succ f ih =>
    intro n d hd
    cases n with
    | zero => simp [digitsAux] at hd
    | succ m =>
      simp only [digitsAux, List.mem_cons] at hd
      rcases hd with h | h
      · subst h; exact Nat.mod_lt _ (by omega)
      · exact ih _ d h

theorem digits10_lt_ten {n : Nat} : ∀ d ∈ digits10 n, d < 10 :=
  digitsAux_lt_ten n n

theorem digitsAux_length_le : ∀ (f n k : Nat), n < 10 ^ k → (digitsAux f n).length ≤ k := by
  intro f
  induction f with
  | zero => intro n k _; simp [digitsAux]
  | succ f ih =>
    intro n k hn
    cases n with
    | zero => simp [digitsAux]
    | succ m =>
      cases k with
      | zero => rw [pow_zero] at hn; omega
      | succ k =>
        simp only [digitsAux, List.length_cons]
        have hdiv : (m + 1) / 10 < 10 ^ k := by
          rw [Nat.div_lt_iff_lt_mul (by omega : (0 : Nat) < 10), ← pow_succ]
          exact hn
        have h2 := ih ((m + 1) / 10) k hdiv
        omega

theorem digits10_length_le {n k : Nat} (hn : n < 10 ^ k) : (digits10 n).length ≤ k :=
  digitsAux_length_le n n k hn

theorem digits10_ne_nil {n : Nat} (h : 0 < n) : digits10 n ≠ [] := by
  rw [digits10_def h]; simp

theorem digits10_length_ge_two {n : Nat} (h : 10 ≤ n) : 2 ≤ (digits10 n).length := by
  rw [digits10_def (by omega)]
  have h1 : 0 < n / 10 := Nat.div_pos (by omega) (by omega)
  have h2 : 0 < (digits10 (n / 10)).length := List.length_pos.mpr (digits10_ne_nil h1)
  simp only [List.length_cons]
  omega

theorem strToNat_foldl_lt : ∀ (s : List Nat) (acc : Nat), (∀ d ∈ s, d < 10) →
    List.foldl (fun a d => a * 10 + d) acc s < (acc + 1) * 10 ^ s.length := by
  intro s
  induction s with
  | nil => intro acc _; simp
  | cons a t ih =>
    intro acc hd
    simp only [List.foldl_cons, List.length_cons]
    have ha : a < 10 := hd a (by simp)
    have h1 := ih (acc * 10 + a) (fun d hdm => hd d (by simp [hdm]))
    have h2 : (acc * 10 + a + 1) * 10 ^ t.length ≤ (acc + 1) * 10 ^ (t.length + 1) := by
      have h3 : acc * 10 + a + 1 ≤ (acc + 1) * 10 := by omega
      calc (acc * 10 + a + 1) * 10 ^ t.length
          ≤ ((acc + 1) * 10) * 10 ^ t.length := Nat.mul_le_mul_right _ h3
        _ = (acc + 1) * 10 ^ (t.length + 1) := by ring
    exact lt_of_lt_of_le h1 h2

theorem strToNat_lt {s : List Nat} (h : ∀ d ∈ s, d < 10) : strToNat s < 10 ^ s.length := by
  have := strToNat_foldl_lt s 0 h
  simpa [strToNat] using this

theorem strToNat_foldl_eq : ∀ (s : List Nat) (acc : Nat),
    List.foldl (fun a d => a * 10 + d) acc s =
      acc * 10 ^ s.length + Nat.ofDigits 10 s.reverse := by
  intro s
  induction s with
  | nil => intro acc; simp [Nat.ofDigits]
  | cons a t ih =>
    intro acc
    simp only [List.foldl_cons, List.length_cons, List.reverse_cons]
    rw [ih (acc * 10 + a), Nat.ofDigits_append]
    simp only [List.length_reverse, Nat.ofDigits_singleton]
    ring

theorem strToNat_eq_ofDigits (s : List Nat) : strToNat s = Nat.ofDigits 10 s.reverse := by
  have h := strToNat_foldl_eq s 0
  simp only [strToNat]
  omega

/-! ### Bounds for reverse_number and the step -/

theorem reverse_number_single {n : Nat} (h : n ≤ 9) : reverse_number n = n * 10 := by
  interval_cases n <;> decide

theorem reverse_number_ge10 {n : Nat} (h : 10 ≤ n) :
    reverse_number n = strToNat (digits10 n) := by
  have h0 : ¬ n = 0 := by omega
  have hlen : ¬ ((digits10 n).reverse.length = 1) := by
    rw [List.length_reverse]
    have := digits10_length_ge_two h
    omega
  simp only [reverse_number, if_neg h0, if_neg hlen, List.reverse_reverse]

theorem reverse_number_lt {k n : Nat} (hk : 2 ≤ k) (hn : n < 10 ^ k) :
    reverse_number n < 10 ^ k := by
  by_cases h : n ≤ 9
  · rw [reverse_number_single h]
    have h1 : (10 : Nat) ^ 2 ≤ 10 ^ k := Nat.pow_le_pow_right (by omega) hk
    have h2 : (10 : Nat) ^ 2 = 100 := by norm_num
    omega
  · push_neg at h
    rw [reverse_number_ge10 (by omega)]
    calc strToNat (digits10 n) < 10 ^ (digits10 n).length := strToNat_lt digits10_lt_ten
      _ ≤ 10 ^ k := Nat.pow_le_pow_right (by omega) (digits10_length_le hn)

theorem stepFn_lt {k n : Nat} (hk : 2 ≤ k) (hn : n < 10 ^ k) : stepFn n < 10 ^ k := by
  have hr := reverse_number_lt hk hn
  have hpos : 0 < 10 ^ k := Nat.pos_pow_of_pos k (by omega)
  simp only [stepFn]
  split
  · exact hpos
  · split <;> omega

theorem n_lt_pow_max (n : Nat) : n < 10 ^ max 2 n := by
  have h1 : n < 2 ^ n := Nat.lt_two_pow n
  have h2 : (2 : Nat) ^ n ≤ 10 ^ n := Nat.pow_le_pow_left (by omega) n
  have h3 : (10 : Nat) ^ n ≤ 10 ^ max 2 n :=
    Nat.pow_le_pow_right (by omega) (le_max_right 2 n)
  omega

/-! ### The minimum of a list and the canonical rotation -/

theorem listMin1_le_self : ∀ (t : List Nat) (a : Nat), listMin1 a t ≤ a := by
  intro t
  induction t with
  | nil => intro a; exact le_rfl
  | cons b t ih => intro a; exact le_trans (ih (min a b)) (min_le_left a b)

theorem listMin1_le_mem : ∀ (t : List Nat) (a x : Nat), x ∈ t → listMin1 a t ≤ x := by
  intro t
  induction t with
  | nil => intro a x hx; simp at hx
  | cons b t ih =>
    intro a x hx
    rcases List.mem_cons.mp hx with h | h
    · subst h; exact le_trans (listMin1_le_self t (min a x)) (min_le_right a x)
    · exact ih (min a b) x h

theorem listMin1_mem : ∀ (t : List Nat) (a : Nat), listMin1 a t ∈ a :: t := by
  intro t
  induction t with
  | nil => intro a; simp [listMin1]
  | cons b t ih =>
    intro a
    show listMin1 (min a b) t ∈ a :: b :: t
    rcases List.mem_cons.mp (ih (min a b)) with h | h
    · rw [h]
      rcases min_choice a b with h2 | h2 <;> rw [h2] <;> simp
    · simp [h]

theorem listMinL_mem {l : List Nat} (h : l ≠ []) : listMinL l ∈ l := by
  cases l with
  | nil => exact absurd rfl h
  | cons a t => exact listMin1_mem t a

theorem listMinL_le {l : List Nat} {x : Nat} (h : x ∈ l) : listMinL l ≤ x := by
  cases l with
  | nil => simp at h
  | cons a t =>
    rcases List.mem_cons.mp h with h2 | h2
    · subst h2; exact listMin1_le_self t x
    · exact listMin1_le_mem t a x h2

theorem listMinL_eq {l : List Nat} {m : Nat} (hne : l ≠ []) (hmem : m ∈ l)
    (hle : ∀ x ∈ l, m ≤ x) : listMinL l = m :=
  le_antisymm (listMinL_le hmem) (hle _ (listMinL_mem hne))

theorem get_canonical_loop_eq_rotate {l : List Nat} (h : l ≠ []) :
    get_canonical_loop l = l.rotate (l.indexOf (listMinL l)) := by
  cases l with
  | nil => exact absurd rfl h
  | cons a t =>
    have hmem : listMin1 a t ∈ a :: t := listMin1_mem t a
    have hidx : (a :: t).indexOf (listMin1 a t) < (a :: t).length :=
      List.indexOf_lt_length.mpr hmem
    show (a :: t).drop _ ++ (a :: t).take _ = _
    exact (List.rotate_eq_drop_append_take (le_of_lt hidx)).symm

theorem head?_rotate {l : List Nat} {k : Nat} (h : k < l.length) :
    (l.rotate k).head? = some l[k] := by
  rw [List.rotate_eq_drop_append_take (le_of_lt h), List.drop_eq_getElem_cons h]
  rfl

theorem get_canonical_loop_head {l : List Nat} (h : l ≠ []) :
    (get_canonical_loop l).head? = some (listMinL l) := by
  rw [get_canonical_loop_eq_rotate h]
  have hidx : l.indexOf (listMinL l) < l.length :=
    List.indexOf_lt_length.mpr (listMinL_mem h)
  rw [head?_rotate hidx]
  congr 1
  have h2 := List.indexOf_get (a := listMinL l) (l := l) hidx
  simp only [List.get_eq_getElem] at h2
  exact h2

theorem get_canonical_loop_perm {l : List Nat} (h : l ≠ []) :
    (get_canonical_loop l).Perm l := by
  rw [get_canonical_loop_eq_rotate h]
  exact List.rotate_perm l _

theorem get_canonical_loop_ne_nil {l : List Nat} (h : l ≠ []) :
    get_canonical_loop l ≠ [] := by
  intro hc
  have hlen := (get_canonical_loop_perm h).length_eq
  rw [hc] at hlen
  simp only [List.length_nil] at hlen
  exact h (List.length_eq_zero.mp hlen.symm)

theorem get_canonical_loop_min {l : List Nat} (h : l ≠ []) :
    listMinL (get_canonical_loop l) = listMinL l := by
  apply listMinL_eq (get_canonical_loop_ne_nil h)
  · exact ((get_canonical_loop_perm h).mem_iff).mpr (listMinL_mem h)
  · intro x hx
    exact listMinL_le (((get_canonical_loop_perm h).mem_iff).mp hx)

/-! ### A value occurring exactly once sits at a unique position -/

theorem getElem_count_one : ∀ (l : List Nat) (m i j : Nat)
    (hi : i < l.length) (hj : j < l.length),
    l.count m = 1 → l[i] = m → l[j] = m → i = j := by
  intro l
  induction l with
  | nil => intro m i j hi; simp at hi
  | cons a t ih =>
    intro m i j hi hj hc hgi hgj
    have hcc : t.count m + (if a = m then 1 else 0) = 1 := by
      have := List.count_cons m a t
      simp only [beq_iff_eq] at this
      omega
    cases i with
    | zero =>
      cases j with
      | zero => rfl
      | succ j =>
        exfalso
        simp only [List.getElem_cons_zero] at hgi
        simp only [List.getElem_cons_succ] at hgj
        have hmem : m ∈ t := hgj ▸ List.getElem_mem _
        have hpos : 0 < t.count m := List.count_pos_iff.mpr hmem
        rw [if_pos hgi] at hcc
        omega
    | succ i =>
      cases j with
      | zero =>
        exfalso
        simp only [List.getElem_cons_zero] at hgj
        simp only [List.getElem_cons_succ] at hgi
        have hmem : m ∈ t := hgi ▸ List.getElem_mem _
        have hpos : 0 < t.count m := List.count_pos_iff.mpr hmem
        rw [if_pos hgj] at hcc
        omega
      | succ j =>
        simp only [List.getElem_cons_succ] at hgi hgj
        simp only [List.length_cons] at hi hj
        have hmem : m ∈ t := hgi ▸ List.getElem_mem _
        have hpos : 0 < t.count m := List.count_pos_iff.mpr hmem
        have hct : t.count m = 1 := by
          by_cases ha : a = m
          · rw [if_pos ha] at hcc; omega
          · rw [if_neg ha] at hcc; omega
        have := ih m i j (by omega) (by omega) hct hgi hgj
        omega

theorem rotate_head_unique {l : List Nat} {m i j : Nat} (hc : l.count m = 1)
    (hi : (l.rotate i).head? = some m) (hj : (l.rotate j).head? = some m) :
    l.rotate i = l.rotate j := by
  have hlen : 0 < l.length := by
    rcases Nat.eq_zero_or_pos l.length with h | h
    · exfalso
      have : l = [] := List.length_eq_zero.mp h
      subst this
      rw [List.rotate_nil] at hi
      simp at hi
    · exact h
  have hbi : i % l.length < l.length := Nat.mod_lt _ hlen
  have hbj : j % l.length < l.length := Nat.mod_lt _ hlen
  rw [← List.rotate_mod] at hi hj
  rw [head?_rotate hbi] at hi
  rw [head?_rotate hbj] at hj
  have hi2 : l[i % l.length] = m := by injection hi
  have hj2 : l[j % l.length] = m := by injection hj
  have heq := getElem_count_one l m (i % l.length) (j % l.length) hbi hbj hc hi2 hj2
  rw [← List.rotate_mod (n := i), ← List.rotate_mod (n := j), heq]

theorem canonical_rotate_eq {l : List Nat} (h : l ≠ [])
    (hc : l.count (listMinL l) = 1) (k : Nat) :
    get_canonical_loop (l.rotate k) = get_canonical_loop l := by
  have hne2 : l.rotate k ≠ [] := by
    intro hnil
    have := List.length_rotate l k
    rw [hnil] at this
    simp only [List.length_nil] at this
    exact h (List.length_eq_zero.mp this.symm)
  have hminr : listMinL (l.rotate k) = listMinL l := by
    apply listMinL_eq hne2
    · exact List.mem_rotate.mpr (listMinL_mem h)
    · intro x hx; exact listMinL_le (List.mem_rotate.mp hx)
  have e1 : get_canonical_loop (l.rotate k) =
      l.rotate (k + (l.rotate k).indexOf (listMinL l)) := by
    rw [get_canonical_loop_eq_rotate hne2, hminr, List.rotate_rotate]
  have e2 : get_canonical_loop l = l.rotate (l.indexOf (listMinL l)) :=
    get_canonical_loop_eq_rotate h
  have h1 : (l.rotate (k + (l.rotate k).indexOf (listMinL l))).head? =
      some (listMinL l) := by
    rw [← e1, get_canonical_loop_head hne2, hminr]
  have h2 : (l.rotate (l.indexOf (listMinL l))).head? = some (listMinL l) := by
    rw [← e2, get_canonical_loop_head h]
  rw [e1, e2]
  exact rotate_head_unique hc h1 h2

/-! ### The detection loop terminates: pigeonhole on the bounded value domain -/

theorem nodup_bounded_length_le {l : List Nat} {B : Nat} (hnd : l.Nodup)
    (hb : ∀ x ∈ l, x < B) : l.length ≤ B := by
  have h1 : l.toFinset.card = l.length := List.toFinset_card_of_nodup hnd
  have h2 : l.toFinset ⊆ Finset.range B := by
    intro x hx
    rw [List.mem_toFinset] at hx
    rw [Finset.mem_range]
    exact hb x hx
  have h3 := Finset.card_le_card h2
  rw [h1, Finset.card_range] at h3
  exact h3

theorem loopAux_total : ∀ (fuel : Nat) (seq : List Nat) (current k : Nat), 2 ≤ k →
    seq.Nodup → (∀ x ∈ seq, x < 10 ^ k) → current < 10 ^ k →
    10 ^ k + 1 ≤ fuel + seq.length →
    ∃ l, loopAux fuel seq current = some l ∧ l ≠ [] := by
  intro fuel
  induction fuel with
  | zero =>
    intro seq current k _ hnd hb _ hfuel
    exfalso
    have := nodup_bounded_length_le hnd hb
    omega
  | succ fuel ih =>
    intro seq current k hk hnd hb hcur hfuel
    by_cases hmem : current ∈ seq
    · refine ⟨seq.drop (seq.indexOf current), by simp [loopAux, hmem], ?_⟩
      have hidx : seq.indexOf current < seq.length := List.indexOf_lt_length.mpr hmem
      intro hnil
      have hlen := List.length_drop (seq.indexOf current) seq
      rw [hnil] at hlen
      simp only [List.length_nil] at hlen
      omega
    · have hstep : stepFn current < 10 ^ k := stepFn_lt hk hcur
      have hnd2 : (seq ++ [current]).Nodup := by
        simp [List.nodup_append, hnd, hmem]
      have hb2 : ∀ x ∈ seq ++ [current], x < 10 ^ k := by
        intro x hx
        rcases List.mem_append.mp hx with h | h
        · exact hb x h
        · simp only [List.mem_singleton] at h
          subst h
          exact hcur
      have hf2 : 10 ^ k + 1 ≤ fuel + (seq ++ [current]).length := by
        simp only [List.length_append, List.length_singleton]
        omega
      obtain ⟨l, hl, hlne⟩ := ih (seq ++ [current]) (stepFn current) k hk hnd2 hb2 hstep hf2
      exact ⟨l, by simp [loopAux, hmem, hl], hlne⟩

theorem find_ending_total (n : Nat) :
    ∃ c, find_ending_loop_for_number n = some c ∧ c ≠ [] ∧
      c.head? = some (listMinL c) := by
  obtain ⟨l, hl, hlne⟩ := loopAux_total (10 ^ max 2 n + 1) [] n (max 2 n)
    (le_max_left 2 n) List.nodup_nil (by simp) (n_lt_pow_max n) (by simp)
  refine ⟨get_canonical_loop l, ?_, get_canonical_loop_ne_nil hlne, ?_⟩
  · unfold find_ending_loop_for_number
    rw [hl]
    rfl
  · rw [get_canonical_loop_head hlne, get_canonical_loop_min hlne]

/-! ### Range analysis -/

theorem bump_sumCounts (tbl : List (List Nat × Nat)) (key : List Nat) :
    sumCounts (bump tbl key) = sumCounts tbl + 1 := by
  induction tbl with
  | nil => rfl
  | cons p rest ih =>
    obtain ⟨k, c⟩ := p
    simp only [bump]
    by_cases h : k = key
    · rw [if_pos h]
      simp only [sumCounts, List.map_cons, List.sum_cons]
      omega
    · rw [if_neg h]
      simp only [sumCounts, List.map_cons, List.sum_cons] at ih ⊢
      omega

theorem find_ending_loop_int_ok {i : Int} (h : 0 ≤ i) :
    ∃ c, find_ending_loop_int i = Except.ok c := by
  obtain ⟨c, hc, _, _⟩ := find_ending_total i.toNat
  refine ⟨c, ?_⟩
  simp only [find_ending_loop_int, find_ending_loop_py]
  rw [if_neg (by omega)]
  rw [hc]

theorem analyzeAux_ok : ∀ (lst : List Int) (tbl : List (List Nat × Nat)),
    (∀ i ∈ lst, 0 ≤ i) →
    ∃ out, analyzeAux lst tbl = Except.ok out ∧
      sumCounts out = sumCounts tbl + lst.length := by
  intro lst
  induction lst with
  | nil => intro tbl _; exact ⟨tbl, rfl, by simp⟩
  | cons i rest ih =>
    intro tbl hpos
    have hi : 0 ≤ i := hpos i (by simp)
    obtain ⟨c, hfind⟩ := find_ending_loop_int_ok hi
    obtain ⟨out, hout, hsum⟩ := ih (bump tbl c) (fun x hx => hpos x (by simp [hx]))
    refine ⟨out, ?_, ?_⟩
    · simp only [analyzeAux]
      rw [hfind]
      exact hout
    · rw [hsum, bump_sumCounts]
      simp only [List.length_cons]
      omega

theorem rangeList_length (s e : Int) : (rangeList s e).length = (e + 1 - s).toNat := by
  unfold rangeList
  rw [List.length_map, List.length_range]

theorem rangeList_nonneg {s e x : Int} (hs : 0 ≤ s) (hx : x ∈ rangeList s e) : 0 ≤ x := by
  unfold rangeList at hx
  obtain ⟨j, _, rfl⟩ := List.mem_map.mp hx
  have hj : (0 : Int) ≤ (j : Int) := Int.natCast_nonneg j
  omega

/-! ### The sort order of the summary -/

theorem tupLt_cons (a b : Nat) (as_ bs : List Nat) :
    tupLt (a :: as_) (b :: bs) = true ↔ (a < b ∨ (a = b ∧ tupLt as_ bs = true)) := by
  simp only [tupLt]
  split_ifs with h1 h2
  · simp [h1]
  · constructor
    · intro h; simp at h
    · intro h; rcases h with h | ⟨h, _⟩ <;> omega
  · have h3 : a = b := by omega
    simp [h3]

theorem tupLt_irrefl : ∀ a : List Nat, tupLt a a = false := by
  intro a
  induction a with
  | nil => rfl
  | cons x t ih =>
    rcases Bool.eq_false_or_eq_true (tupLt (x :: t) (x :: t)) with h | h
    · exfalso
      rcases (tupLt_cons x x t t).mp h with h2 | ⟨_, h2⟩
      · omega
      · rw [ih] at h2; simp at h2
    · exact h

theorem tupLt_trans : ∀ a b c : List Nat,
    tupLt a b = true → tupLt b c = true → tupLt a c = true := by
  intro a
  induction a with
  | nil =>
    intro b c hab hbc
    cases b with
    | nil => simp [tupLt] at hab
    | cons y bs =>
      cases c with
      | nil => simp [tupLt] at hbc
      | cons z cs => rfl
  | cons x as_ ih =>
    intro b c hab hbc
    cases b with
    | nil => simp [tupLt] at hab
    | cons y bs =>
      cases c with
      | nil => simp [tupLt] at hbc
      | cons z cs =>
        rw [tupLt_cons] at hab hbc ⊢
        rcases hab with h1 | ⟨h1, h1t⟩ <;> rcases hbc with h2 | ⟨h2, h2t⟩
        · left; omega
        · left; omega
        · left; omega
        · right; exact ⟨by omega, ih bs cs h1t h2t⟩

theorem tupLt_total : ∀ a b : List Nat, tupLt a b = false → tupLt b a = true ∨ a = b := by
  intro a
  induction a with
  | nil =>
    intro b h
    cases b with
    | nil => right; rfl
    | cons y bs => simp [tupLt] at h
  | cons x as_ ih =>
    intro b h
    cases b with
    | nil => left; rfl
    | cons y bs =>
      have hh : ¬ (x < y ∨ (x = y ∧ tupLt as_ bs = true)) := by
        rw [← tupLt_cons]
        simp [h]
      push_neg at hh
      obtain ⟨h1, h2⟩ := hh
      rcases Nat.lt_trichotomy x y with h3 | h3 | h3
      · omega
      · have h4 : tupLt as_ bs = false := by
          rcases Bool.eq_false_or_eq_true (tupLt as_ bs) with hb | hb
          · exact absurd hb (h2 h3)
          · exact hb
        rcases ih bs h4 with h5 | h5
        · left
          rw [tupLt_cons]
          right
          exact ⟨h3.symm, h5⟩
        · right
          rw [h3, h5]
      · left
        rw [tupLt_cons]
        left
        exact h3

theorem tupLt_asymm : ∀ a b : List Nat, tupLt a b = true → tupLt b a = false := by
  intro a b hab
  rcases Bool.eq_false_or_eq_true (tupLt b a) with h | h
  · exfalso
    have h2 := tupLt_trans a b a hab h
    rw [tupLt_irrefl] at h2
    simp at h2
  · exact h

theorem entryKey_lt_ge {x y : List Nat × Nat} (h : entryKeyLt y x = true) : entryGE x y := by
  unfold entryKeyLt at h
  split_ifs at h with h1 h2
  · exact ⟨by omega, fun he => by omega⟩
  · exact ⟨by omega, fun _ => tupLt_asymm _ _ h⟩

theorem entryKey_not_lt_ge {x y : List Nat × Nat} (h : entryKeyLt y x = false) :
    entryGE y x := by
  unfold entryKeyLt at h
  split_ifs at h with h1 h2
  · exact ⟨by omega, fun he => by omega⟩
  · exact ⟨by omega, fun _ => h⟩

theorem entryKey_lt_ge_trans {x y z : List Nat × Nat} (h : entryKeyLt y x = true)
    (hyz : entryGE y z) : entryGE x z := by
  obtain ⟨hz1, hz2⟩ := hyz
  unfold entryKeyLt at h
  split_ifs at h with h1 h2
  · exact ⟨by omega, fun he => by omega⟩
  · refine ⟨by omega, fun he => ?_⟩
    have hcy : y.2 = z.2 := by omega
    have h4 : tupLt y.1 z.1 = false := hz2 hcy
    rcases tupLt_total y.1 z.1 h4 with h5 | h5
    · exact tupLt_asymm _ _ (tupLt_trans _ _ _ h5 h)
    · rw [← h5]
      exact tupLt_asymm _ _ h

theorem mem_insertDesc {x z : List Nat × Nat} :
    ∀ {l : List (List Nat × Nat)}, z ∈ insertDesc x l → z = x ∨ z ∈ l := by
  intro l
  induction l with
  | nil =>
    intro h
    simp only [insertDesc, List.mem_singleton] at h
    exact Or.inl h
  | cons y ys ih =>
    intro h
    simp only [insertDesc] at h
    split_ifs at h with hcond
    · rcases List.mem_cons.mp h with h2 | h2
      · exact Or.inl h2
      · exact Or.inr h2
    · rcases List.mem_cons.mp h with h2 | h2
      · exact Or.inr (by simp [h2])
      · rcases ih h2 with h3 | h3
        · exact Or.inl h3
        · exact Or.inr (by simp [h3])

theorem pairwise_insertDesc {x : List Nat × Nat} :
    ∀ {l : List (List Nat × Nat)}, l.Pairwise entryGE →
      (insertDesc x l).Pairwise entryGE := by
  intro l
  induction l with
  | nil => intro _; simp [insertDesc]
  | cons y ys ih =>
    intro hp
    rw [List.pairwise_cons] at hp
    obtain ⟨hy, hys⟩ := hp
    simp only [insertDesc]
    split_ifs with hcond
    · rw [List.pairwise_cons]
      constructor
      · intro z hz
        rcases List.mem_cons.mp hz with h | h
        · subst h; exact entryKey_lt_ge hcond
        · exact entryKey_lt_ge_trans hcond (hy z h)
      · rw [List.pairwise_cons]
        exact ⟨hy, hys⟩
    · rw [List.pairwise_cons]
      constructor
      · intro z hz
        rcases mem_insertDesc hz with h | h
        · subst h
          exact entryKey_not_lt_ge (by simpa using hcond)
        · exact hy z h
      · exact ih hys

/-! ### The Int-level model: non-negativity is preserved -/

theorem reverse_int_ok {n : Int} (h : 0 ≤ n) :
    reverse_int n = Except.ok ((reverse_number n.toNat : Nat) : Int) := by
  unfold reverse_int
  rw [if_neg (by omega)]

theorem step_int_ok {n : Int} (h : 0 ≤ n) :
    ∃ m, step_int n = Except.ok m ∧ 0 ≤ m := by
  unfold step_int
  rw [reverse_int_ok h]
  refine ⟨_, rfl, ?_⟩
  have hr0 : (0 : Int) ≤ ((reverse_number n.toNat : Nat) : Int) := Int.natCast_nonneg _
  split_ifs <;> omega

theorem detect_seq_int_nonneg : ∀ (fuel : Nat) (seq : List Int) (current : Int)
    (out : List Int × Option (List Int)),
    (∀ x ∈ seq, 0 ≤ x) → 0 ≤ current →
    detect_seq_int fuel seq current = Except.ok out →
    (∀ x ∈ out.1, 0 ≤ x) ∧ ∀ lp, out.2 = some lp → ∀ x ∈ lp, 0 ≤ x := by
  intro fuel
  induction fuel with
  | zero =>
    intro seq current out hseq _ hdet
    simp only [detect_seq_int] at hdet
    injection hdet with h
    subst h
    refine ⟨hseq, ?_⟩
    intro lp hlp
    simp at hlp
  | succ fuel ih =>
    intro seq current out hseq hcur hdet
    simp only [detect_seq_int] at hdet
    split_ifs at hdet with hmem
    · injection hdet with h
      subst h
      refine ⟨hseq, ?_⟩
      intro lp hlp x hx
      simp only at hlp
      injection hlp with h2
      subst h2
      exact hseq x (List.mem_of_mem_drop hx)
    · obtain ⟨m, hm, hm0⟩ := step_int_ok hcur
      rw [hm] at hdet
      refine ih (seq ++ [current]) m out ?_ hm0 hdet
      intro x hx
      rcases List.mem_append.mp hx with h | h
      · exact hseq x h
      · simp only [List.mem_singleton] at h
        subst h
        exact hcur

/-! ### Claims -/

/-- C1 (amended): canonicalization is rotation-invariant for every
non-empty loop list whose minimum element occurs exactly once — which
includes every loop the cycle detector can produce, since those are
duplicate-free — and the loops [63, 27, 9], [27, 9, 63] and [9, 63, 27]
all canonicalize to (9, 63, 27). (The unrestricted claim fails when the
minimum repeats; see the counterexample.) -/
theorem C1_canonicalize_rotation_invariant :
    (∀ l : List Nat, l ≠ [] → l.count (listMinL l) = 1 →
      ∀ k, get_canonical_loop (l.rotate k) = get_canonical_loop l) ∧
    get_canonical_loop [63, 27, 9] = [9, 63, 27] ∧
    get_canonical_loop [27, 9, 63] = [9, 63, 27] ∧
    get_canonical_loop [9, 63, 27] = [9, 63, 27] := by
  refine ⟨?_, by decide, by decide, by decide⟩
  intro l h hc k
  exact canonical_rotate_eq h hc k

/-- C1 witness: the invariance theorem applied to the concrete loop
[63, 27, 9] and the rotation by one. -/
theorem C1_witness :
    get_canonical_loop ([63, 27, 9].rotate 1) = get_canonical_loop [63, 27, 9] :=
  C1_canonicalize_rotation_invariant.1 [63, 27, 9] (by decide) (by decide) 1

/-- C1 counterexample: for a loop list whose minimum occurs twice,
canonicalizing a cyclic rotation does not yield the same tuple
([1, 2, 1, 3] canonicalizes to itself, its rotation [1, 3, 1, 2] to
itself), so the claim as stated over every non-empty loop list fails. -/
theorem C1_counterexample :
    get_canonical_loop (List.rotate [1, 2, 1, 3] 2) ≠ get_canonical_loop [1, 2, 1, 3] := by
  decide

/-- C2: for every non-negative integer n, one reverse-subtract step
yields 0 when n equals its digit reversal and the absolute difference
between n and its reversal otherwise. -/
theorem C2_step_is_absolute_difference (n : Nat) :
    stepFn n = if reverse_number n = n then 0
      else ((n : Int) - (reverse_number n : Int)).natAbs := by
  simp only [stepFn]
  by_cases h : n = reverse_number n
  · rw [if_pos h.symm, if_pos h]
  · have hne : ¬ (reverse_number n = n) := fun hh => h hh.symm
    rw [if_neg h, if_neg hne]
    by_cases h2 : n > reverse_number n
    · rw [if_pos h2]
      omega
    · rw [if_neg h2]
      omega

/-- C3: digit reversal follows the single-digit convention: a digit d
in 1..9 reverses to d * 10, 0 reverses to 0, and a number with at
least two decimal digits reverses to the numeric value of its reversed
digit string (leading zeros dropped by numeric interpretation), so in
particular reverse(100) = 1. -/
theorem C3_reverse_digit_convention :
    (∀ d : Nat, 1 ≤ d → d ≤ 9 → reverse_number d = d * 10) ∧
    reverse_number 0 = 0 ∧
    (∀ n : Nat, 10 ≤ n →
      reverse_number n = Nat.ofDigits 10 ((Nat.digits 10 n).reverse)) ∧
    reverse_number 100 = 1 := by
  refine ⟨?_, by decide, ?_, by decide⟩
  · intro d h1 h9
    interval_cases d <;> decide
  · intro n hn
    rw [reverse_number_ge10 hn, strToNat_eq_ofDigits, digits10_eq_digits]

/-- C3 witness: the single-digit rule at d = 9 and the multi-digit rule
at n = 100. -/
theorem C3_witness :
    reverse_number 9 = 9 * 10 ∧
    reverse_number 100 = Nat.ofDigits 10 ((Nat.digits 10 100).reverse) :=
  ⟨C3_reverse_digit_convention.1 9 (by decide) (by decide),
   C3_reverse_digit_convention.2.2.1 100 (by decide)⟩

/-- C4: for every non-negative integer n the cycle detection
terminates (the fuelled loop returns a value) and the result is a
non-empty canonical loop whose first element is its minimum element. -/
theorem C4_detect_terminates_head_is_min (n : Nat) :
    ∃ c, find_ending_loop_for_number n = some c ∧ c ≠ [] ∧
      c.head? = some (listMinL c) :=
  find_ending_total n

/-- C5 counterexample: analyze_number_range with startRange = 5 and
endRange = 1 does not fail: it completes normally (isOk), contrary to
the claim that it raises a range-validation error before processing. -/
theorem C5_counterexample : (analyze_number_range 5 1).isOk = true := rfl

/-- C5 (amended): analyze_number_range itself performs no range
validation; when endRange < startRange it iterates over an empty range
and returns successfully with an empty frequency table (the CLI layer,
out of scope here, is what rejects such ranges before calling it). -/
theorem C5_empty_range_no_error (s e : Int) (h : e < s) :
    analyze_number_range s e = Except.ok [] := by
  unfold analyze_number_range
  have hr : rangeList s e = [] := by
    unfold rangeList
    have h0 : (e + 1 - s).toNat = 0 := Int.toNat_of_nonpos (by omega)
    rw [h0]
    rfl
  rw [hr]
  rfl

/-- C5 witness: the amended theorem at the claimed inputs 5 and 1. -/
theorem C5_witness : analyze_number_range 5 1 = Except.ok [] :=
  C5_empty_range_no_error 5 1 (by decide)

/-- C6: detection started at 0 yields the canonical loop (0,),
because reverse(0) = 0 and step(0) = 0. -/
theorem C6_detect_zero :
    find_ending_loop_for_number 0 = some [0] ∧
    reverse_number 0 = 0 ∧ stepFn 0 = 0 :=
  ⟨by decide, by decide, by decide⟩

/-- C7: for a valid non-negative range the analysis succeeds and the
counts in the frequency table sum to the number of starting values,
endRange - startRange + 1 (each starting value increments exactly one
canonical-loop count). -/
theorem C7_counts_sum (s e : Int) (hs : 0 ≤ s) (hse : s ≤ e) :
    ∃ tbl, analyze_number_range s e = Except.ok tbl ∧
      sumCounts tbl = (e - s + 1).toNat := by
  obtain ⟨out, hout, hsum⟩ :=
    analyzeAux_ok (rangeList s e) [] (fun i hi => rangeList_nonneg hs hi)
  refine ⟨out, hout, ?_⟩
  rw [rangeList_length] at hsum
  simp only [sumCounts, List.map_nil, List.sum_nil, Nat.zero_add] at hsum ⊢
  rw [hsum]
  omega

/-- C7 witness: analyzing 1 through 100 gives a table whose counts sum
to exactly 100. -/
theorem C7_witness :
    ∃ tbl, analyze_number_range 1 100 = Except.ok tbl ∧ sumCounts tbl = 100 := by
  obtain ⟨tbl, h1, h2⟩ := C7_counts_sum 1 100 (by decide) (by decide)
  exact ⟨tbl, h1, by rw [h2]; decide⟩

/-- C8: the rendered summary entries are pairwise ordered by count
descending, and among equal counts by loop tuple descending (an
earlier entry never has a smaller count, and on a count tie its loop
tuple is not smaller than a later entry's). -/
theorem C8_summary_sorted_desc (tbl : List (List Nat × Nat)) :
    (sorted_loops tbl).Pairwise entryGE := by
  unfold sorted_loops
  induction tbl with
  | nil => simp
  | cons p rest ih =>
    simp only [List.foldr_cons]
    exact pairwise_insertDesc ih

/-- C9 counterexample: a non-integer value rendering as the digit
string "42", supplied to digit reversal, is silently coerced and
processed — the call completes without error and returns 24 — so the
original claim that any non-integer input to digit reversal raises an
input-domain error is false. -/
theorem C9_counterexample :
    (reverse_number_py (.nonIntDigits 4 [2])).isOk = true ∧
    reverse_number_py (.nonIntDigits 4 [2]) = Except.ok 24 :=
  ⟨rfl, rfl⟩

/-- C9 (amended): a negative or non-integer starting value makes the
cycle detector fail with the input-domain ValueError before any
iteration (the error branch is taken before the detection loop is
entered). Digit reversal itself performs no validation: it raises on a
negative value (the reversed rendering ends in the minus sign, which
int() rejects) and on a non-integer whose rendering int() cannot
parse, but a non-integer whose rendered string consists solely of
digit characters is silently coerced and processed. -/
theorem C9_input_validation :
    (∀ i : Int, i < 0 → find_ending_loop_py (.intV i) =
      Except.error "Input must be a non-negative integer.") ∧
    (∀ (d : Nat) (ds : List Nat), find_ending_loop_py (.nonIntDigits d ds) =
      Except.error "Input must be a non-negative integer.") ∧
    find_ending_loop_py .nonIntOther =
      Except.error "Input must be a non-negative integer." ∧
    (∀ i : Int, i < 0 → reverse_number_py (.intV i) =
      Except.error "invalid literal for int() with base 10") ∧
    reverse_number_py .nonIntOther =
      Except.error "invalid literal for int() with base 10" ∧
    (∀ (d : Nat) (ds : List Nat),
      (reverse_number_py (.nonIntDigits d ds)).isOk = true) := by
  refine ⟨?_, fun d ds => rfl, rfl, ?_, rfl, fun d ds => rfl⟩
  · intro i hi
    simp only [find_ending_loop_py]
    rw [if_pos hi]
  · intro i hi
    simp only [reverse_number_py]
    rw [if_pos hi]

/-- C9 witness: the validation theorem at the concrete detector input
-1, the concrete reversal input -1, and the digit-string rendering of
"42". -/
theorem C9_witness :
    find_ending_loop_py (.intV (-1)) =
      Except.error "Input must be a non-negative integer." ∧
    reverse_number_py (.intV (-1)) =
      Except.error "invalid literal for int() with base 10" ∧
    (reverse_number_py (.nonIntDigits 4 [2])).isOk = true :=
  ⟨C9_input_validation.1 (-1) (by decide),
   C9_input_validation.2.2.2.1 (-1) (by decide),
   C9_input_validation.2.2.2.2.2 4 [2]⟩

/-- C10: for every non-negative current value the digit reversal and
the computed next value are non-negative, and consequently every
element of the visited sequence built by the detection loop from a
non-negative start — and every element of any raw loop it returns — is
non-negative. -/
theorem C10_values_stay_nonneg :
    (∀ n : Int, 0 ≤ n → ∃ r, reverse_int n = Except.ok r ∧ 0 ≤ r ∧
      ∃ m, step_int n = Except.ok m ∧ 0 ≤ m) ∧
    (∀ (fuel : Nat) (seq : List Int) (current : Int)
      (out : List Int × Option (List Int)),
      (∀ x ∈ seq, 0 ≤ x) → 0 ≤ current →
      detect_seq_int fuel seq current = Except.ok out →
      (∀ x ∈ out.1, 0 ≤ x) ∧ ∀ lp, out.2 = some lp → ∀ x ∈ lp, 0 ≤ x) := by
  constructor
  · intro n hn
    exact ⟨_, reverse_int_ok hn, Int.natCast_nonneg _, step_int_ok hn⟩
  · exact detect_seq_int_nonneg

/-- C10 witness: the detection loop started at 0 returns the sequence
[0] with raw loop [0], and the invariant theorem applied there yields
the non-negativity of its element. -/
theorem C10_witness :
    detect_seq_int 3 [] 0 = Except.ok ([0], some [0]) ∧ (0 : Int) ≤ 0 :=
  ⟨rfl, (C10_values_stay_nonneg.2 3 [] 0 ([0], some [0]) (by simp)
    (by decide) rfl).1 0 (by simp)⟩

end Seq2
